import Mathlib

/-!
Shallow embedding of `create_task.py` (memoized minimax for tic-tac-toe).

The Python board is a 3x3 list of lists whose cells hold `None`, `"X"`
(the CPU's mark, `Player.CPU.value`) or `"O"` (the human's mark,
`Player.HUMAN.value`).  We model a cell as `Option String` and a board
as `List (List Cell)`; the boards the program actually builds are always
3 rows of 3 cells (`WF` below).

Python scores are floats; the values that actually occur are rationals
(`100/depth`, `-100/depth`, `0`) together with the sentinels
`float("inf")` and `float("-inf")` used to initialise the running
max/min.  We model them as `WithBot (WithTop Rat)`, whose bottom is
`-inf` and whose top is `inf`.

Mutation of the board (`set_tile` / `null_tile` backtracking) is modelled
by threading the board value through the search: every embedded function
returns the board it leaves behind, so "the call leaves the board as it
found it" is the statement that the returned board equals the argument.

A raised Python exception (an `IndexError` from indexing a list out of
range) is modelled by `none` in an `Option` result.
-/

set_option maxHeartbeats 1000000

namespace TTT

/-- `Status` enum from the source (the string payloads are only used for
printing and are irrelevant to the claims, so they are dropped). -/
inductive Status where
  | CPU_WIN
  | HUMAN_WIN
  | TIE
  | ONGOING
deriving DecidableEq, Repr

/-- `Player` enum from the source. -/
inductive Player where
  | CPU
  | HUMAN
deriving DecidableEq, Repr

/-- `Player.value`: the mark string stored in a board cell. -/
def Player.value : Player → String
  | Player.CPU => "X"
  | Player.HUMAN => "O"

/-- A board cell: `None`, `"X"` or `"O"` in the Python representation. -/
abbrev Cell := Option String

/-- The board: a list of rows of cells (`self.board` in the source).
The program only ever builds 3x3 boards (see `WF`). -/
abbrev Board := List (List Cell)

/-- The 3x3 shape invariant of every board the program builds. -/
def WF (b : Board) : Prop := b.length = 3 ∧ ∀ row ∈ b, row.length = 3

instance (b : Board) : Decidable (WF b) := by
  unfold WF; infer_instance

/-- Python list indexing for reads: a negative index wraps once, an index
outside `[-len, len)` raises `IndexError` (modelled as `none`). -/
def pyIdx (n : Nat) (i : Int) : Option Nat :=
  if 0 ≤ i ∧ i < (n : Int) then some i.toNat
  else if -(n : Int) ≤ i ∧ i < 0 then some (i + n).toNat
  else none

/-- `board[i][j]` for in-range `Nat` coordinates: `some` of the cell when
both indices are in range, `none` otherwise. -/
def cellAt (b : Board) (i j : Nat) : Option Cell :=
  b[i]?.bind fun row => row[j]?

/-- `Board.get_valid_moves`: all coordinates `(i, j)` with
`board[i][j] is None`, produced by the source's nested
`for i in range(len(board)): for j in range(len(board))` loops,
hence in row-major order. -/
def get_valid_moves (b : Board) : List (Nat × Nat) :=
  (List.range b.length).flatMap fun i =>
    (List.range b.length).filterMap fun j =>
      if cellAt b i j = some none then some (i, j) else none

/-- `Board.set_tile`: fails with `False` (no mutation) if the target cell
is occupied, otherwise writes the player's mark and returns `True`.
Indexing out of range raises `IndexError` (`none`). -/
def set_tile (b : Board) (i j : Int) (p : Player) : Option (Bool × Board) :=
  match pyIdx b.length i with
  | none => none
  | some i' =>
    match b[i']? with
    | none => none
    | some row =>
      match pyIdx row.length j with
      | none => none
      | some j' =>
        match row[j']? with
        | none => none
        | some (some _) => some (false, b)
        | some none => some (true, b.set i' (row.set j' (some p.value)))

/-- `Board.null_tile`: unconditionally resets the cell to `None` and
returns `True`; indexing out of range raises `IndexError` (`none`). -/
def null_tile (b : Board) (i j : Int) : Option (Bool × Board) :=
  match pyIdx b.length i with
  | none => none
  | some i' =>
    match b[i']? with
    | none => none
    | some row =>
      match pyIdx row.length j with
      | none => none
      | some j' => some (true, b.set i' (row.set j' none))

/-- `Board.map_sum`: `-1` if the iterable contains `None`, else the
number of `"O"` entries. -/
def map_sum (l : List Cell) : Int :=
  if none ∈ l then -1
  else (l.countP fun c => decide (c = some "O") : Int)

/-- The column `[row[i] for row in board]` read by `get_status`.
(For the program's 3x3 boards every row has an `i`-th entry; the `none`
default never fires.) -/
def column (b : Board) (i : Nat) : List Cell :=
  b.map fun row => row.getD i none

/-- The diagonal `[board[0][0], board[1][1], board[2][2]]`. -/
def diag_left (b : Board) : List Cell :=
  [(b.getD 0 []).getD 0 none, (b.getD 1 []).getD 1 none, (b.getD 2 []).getD 2 none]

/-- The anti-diagonal `[board[0][2], board[1][1], board[2][0]]`. -/
def diag_right (b : Board) : List Cell :=
  [(b.getD 0 []).getD 2 none, (b.getD 1 []).getD 1 none, (b.getD 2 []).getD 0 none]

/-- The eight lines in exactly the order `get_status` examines them:
the three rows, the three columns, then the two diagonals. -/
def linesOf (b : Board) : List (List Cell) :=
  b ++ (List.range b.length).map (column b) ++ [diag_left b, diag_right b]

/-- The per-line win test of `get_status`, applied to the lines in order:
a line summing to `3` is a human win, to `0` a CPU win, else the scan
moves on. -/
def checkLines : List (List Cell) → Option Status
  | [] => none
  | l :: rest =>
    if map_sum l = 3 then some Status.HUMAN_WIN
    else if map_sum l = 0 then some Status.CPU_WIN
    else checkLines rest

/-- `Board.get_status`: scan rows, columns and diagonals for a winner;
otherwise `TIE` when no cell is `None`, else `ONGOING`. -/
def get_status (b : Board) : Status :=
  match checkLines (linesOf b) with
  | some s => s
  | none =>
    if b.all (fun row => row.all fun c => c.isSome) then Status.TIE
    else Status.ONGOING

/-- `Board.to_immutable_key`: the tuple
`(tuple(board[0]), tuple(board[1]), tuple(board[2]))`.  On the program's
3-row boards this is just the row contents. -/
def to_immutable_key (b : Board) : List (List Cell) :=
  [b.getD 0 [], b.getD 1 [], b.getD 2 []]

/-- The score type: Python floats restricted to the values the program
produces — rationals plus `float("-inf")` (`⊥`) and `float("inf")` (`⊤`). -/
abbrev F := WithBot (WithTop Rat)

/-- A rational score as a float value. -/
def fq (q : Rat) : F := ((q : WithTop Rat) : F)

/-- The exact rational value of Python's division `n / d` as it appears
in the terminal scoring (`100/depth`, `-100/depth`).  Written with
`Rat.divInt`; `pydiv_eq_div` below restates it as division in `ℚ`. -/
def pydiv (n : Int) (d : Nat) : Rat := Rat.divInt n d

/-- The global `memo` dictionary: canonical key to score, newest first. -/
abbrev Memo := List (List (List Cell) × F)

instance : DecidableEq (Board × Memo) := instDecidableEqProd

instance : DecidableEq (F × Board × Memo) := instDecidableEqProd

/-!
The search.  `minimax(board, depth, player)` in the source returns a
move when `depth == 1` and a score otherwise; the `depth == 1` branch
only ever calls `minimax(board, 2, HUMAN)`, and every recursive call
passes `depth + 1`, so from the program's entry point
`minimax(board, 1, Player.CPU)` the `depth == 1` test is true exactly at
the top level.  We therefore embed the two branches as two functions:
`minimax1` (the `depth == 1` branch, returning a move) and `minimaxS`
(the `depth != 1` body, returning a score).

`minimaxS` carries a fuel parameter to express the recursion, which in
the source terminates because each trial move removes an empty cell;
fuel `9` is enough for every 3x3 board (at most 9 empty cells, and the
terminal branches never consume fuel).  The loops over the valid moves
are split out (`scoreLoopMin` / `scoreLoopMax` / `topLoop`), taking the
recursive evaluation `minimax(board, depth+1, other)` as the `eval`
argument.
-/

/-- The `player == Player.HUMAN` loop of `minimax` (lines 195-209):
place the human mark, use the cached score for the resulting key if
present, otherwise evaluate recursively and cache the result, then undo
the mark and fold with `min`. -/
def scoreLoopMin (eval : Board → Memo → F × Board × Memo) :
    Board → List (Nat × Nat) → F → Memo → F × Board × Memo
  | b, [], minimum, memo => (minimum, b, memo)
  | b, (i, j) :: rest, minimum, memo =>
    match set_tile b i j Player.HUMAN with
    | none => (minimum, b, memo)
    | some (_, b1) =>
      let key := to_immutable_key b1
      match List.lookup key memo with
      | some v =>
        match null_tile b1 i j with
        | none => (min minimum v, b1, memo)
        | some (_, b3) => scoreLoopMin eval b3 rest (min minimum v) memo
      | none =>
        match eval b1 memo with
        | (r, b2, m2) =>
          match null_tile b2 i j with
          | none => (min minimum r, b2, (key, r) :: m2)
          | some (_, b3) => scoreLoopMin eval b3 rest (min minimum r) ((key, r) :: m2)

/-- The `player == Player.CPU` loop of `minimax` (lines 218-232):
same as `scoreLoopMin` with the CPU mark and a `max` fold. -/
def scoreLoopMax (eval : Board → Memo → F × Board × Memo) :
    Board → List (Nat × Nat) → F → Memo → F × Board × Memo
  | b, [], maximum, memo => (maximum, b, memo)
  | b, (i, j) :: rest, maximum, memo =>
    match set_tile b i j Player.CPU with
    | none => (maximum, b, memo)
    | some (_, b1) =>
      let key := to_immutable_key b1
      match List.lookup key memo with
      | some v =>
        match null_tile b1 i j with
        | none => (max maximum v, b1, memo)
        | some (_, b3) => scoreLoopMax eval b3 rest (max maximum v) memo
      | none =>
        match eval b1 memo with
        | (r, b2, m2) =>
          match null_tile b2 i j with
          | none => (max maximum r, b2, (key, r) :: m2)
          | some (_, b3) => scoreLoopMax eval b3 rest (max maximum r) ((key, r) :: m2)

/-- The `depth != 1` body of `minimax` (lines 177-233): terminal scoring
first (`-100/depth` for a human win, `100/depth` for a CPU win, `0` for
a tie), then the minimizing or maximizing loop over the valid moves. -/
def minimaxS (fuel : Nat) (b : Board) (depth : Nat) (player : Player) (memo : Memo) :
    F × Board × Memo :=
  if get_status b = Status.HUMAN_WIN then (fq (pydiv (-100) depth), b, memo)
  else if get_status b = Status.CPU_WIN then (fq (pydiv 100 depth), b, memo)
  else if get_status b = Status.TIE then (fq 0, b, memo)
  else
    match fuel with
    | 0 => (fq 0, b, memo)
    | Nat.succ f =>
      match player with
      | Player.HUMAN =>
        scoreLoopMin (fun b1 m => minimaxS f b1 (depth + 1) Player.CPU m)
          b (get_valid_moves b) ⊤ memo
      | Player.CPU =>
        scoreLoopMax (fun b1 m => minimaxS f b1 (depth + 1) Player.HUMAN m)
          b (get_valid_moves b) ⊥ memo

/-- The `depth == 1` loop of `minimax` (lines 162-175): try every valid
move for the CPU, score it with `minimax(board, 2, HUMAN)`, record it in
`move_scores`, undo it, and keep the move whenever its score strictly
exceeds the running maximum (initially `float("-inf")`). -/
def topLoop (eval : Board → Memo → F × Board × Memo) :
    Board → List (Nat × Nat) → F → Option (Nat × Nat) →
    List ((Nat × Nat) × F) → Memo →
    Option (Nat × Nat) × List ((Nat × Nat) × F) × Board × Memo
  | b, [], _, move, scores, memo => (move, scores, b, memo)
  | b, (i, j) :: rest, maximum, move, scores, memo =>
    match set_tile b i j Player.CPU with
    | none => (move, scores, b, memo)
    | some (_, b1) =>
      match eval b1 memo with
      | (val, b2, m2) =>
        match null_tile b2 i j with
        | none => (move, scores ++ [((i, j), val)], b2, m2)
        | some (_, b3) =>
          if maximum < val then
            topLoop eval b3 rest val (some (i, j)) (scores ++ [((i, j), val)]) m2
          else
            topLoop eval b3 rest maximum move (scores ++ [((i, j), val)]) m2

/-- The `move_scores` record that the `depth == 1` loop builds: the
per-move recursive scores, in enumeration order (extracted from
`topLoop` for the selection analysis). -/
def topScores (eval : Board → Memo → F × Board × Memo) :
    Board → List (Nat × Nat) → Memo → List ((Nat × Nat) × F)
  | _, [], _ => []
  | b, (i, j) :: rest, memo =>
    match set_tile b i j Player.CPU with
    | none => []
    | some (_, b1) =>
      match eval b1 memo with
      | (val, b2, m2) =>
        match null_tile b2 i j with
        | none => [((i, j), val)]
        | some (_, b3) => ((i, j), val) :: topScores eval b3 rest m2

/-- `minimax(board, 1, Player.CPU)`: the top-level call.  Returns the
chosen move, the `move_scores` record, the board it leaves behind and
the memo cache it leaves behind. -/
def minimax1 (b : Board) (memo : Memo) :
    Option (Nat × Nat) × List ((Nat × Nat) × F) × Board × Memo :=
  topLoop (fun b1 m => minimaxS 9 b1 2 Player.HUMAN m)
    b (get_valid_moves b) ⊥ none [] memo

/-- Number of occupied (non-`None`) cells; inserted memo keys always
carry strictly more marks than the position whose children are being
scanned, which is why a position's own key is never cached. -/
def markCount (b : Board) : Nat :=
  (b.map fun row => row.countP fun c => c.isSome).sum

/-- Spec-side description of the enumeration order: all coordinates in
row-major order (to be compared with `get_valid_moves`). -/
def rowMajorEnum (b : Board) : List (Nat × Nat) :=
  (List.range b.length).flatMap fun i =>
    (List.range b.length).map fun j => (i, j)

/-- Spec-side: the greatest score in a `move_scores` record (`⊥`, i.e.
`float("-inf")`, when the record is empty). -/
def bestScore (sc : List ((Nat × Nat) × F)) : F :=
  sc.foldr (fun p acc => max p.2 acc) ⊥

/-- Spec-side description of the top-level selection: the first-seen move
whose score equals the overall maximum (no move at all when every score
is `-inf`, since the comparison is strict). -/
def firstBest (sc : List ((Nat × Nat) × F)) : Option (Nat × Nat) :=
  if bestScore sc = ⊥ then none
  else (sc.find? fun p => p.2 == bestScore sc).map Prod.fst

/-- The empty board. -/
def bEmpty : Board :=
  [[none, none, none], [none, none, none], [none, none, none]]

/-- The board of end-to-end scenario 2:
`[[X, X, _], [O, O, _], [_, _, _]]`. -/
def bC2 : Board :=
  [[some "X", some "X", none], [some "O", some "O", none], [none, none, none]]

/-- A board whose first row is three `X` marks (a CPU win). -/
def bXrow : Board :=
  [[some "X", some "X", some "X"], [some "O", some "O", none], [none, none, none]]

/-- A board whose first row is three `O` marks (a human win). -/
def bOrow : Board :=
  [[some "O", some "O", some "O"], [some "X", some "X", none], [none, none, none]]

/-- A full drawn board. -/
def bTie : Board :=
  [[some "X", some "O", some "X"], [some "X", some "O", some "O"],
   [some "O", some "X", some "X"]]

/-- The scenario-2 board after the human mark is placed at `(0, 2)`. -/
def bC2row0 : Board :=
  [[some "X", some "X", some "O"], [some "O", some "O", none], [none, none, none]]

/-- An ongoing board with a single empty cell, at `(2, 2)`. -/
def bOne : Board :=
  [[some "X", some "O", some "X"], [some "X", some "O", some "O"],
   [some "O", some "X", none]]

/-- A board-preserving evaluation stub used to exercise the loop-step
lemmas at concrete inputs. -/
def evalConst : Board → Memo → F × Board × Memo := fun b m => (fq 0, b, m)

/-! ### Basic facts about the board operations -/

theorem pydiv_eq_div (n : Int) (d : Nat) : pydiv n d = (n : Rat) / (d : Rat) := by
  unfold pydiv
  rw [Rat.divInt_eq_div]
  norm_num

theorem mem_get_valid_moves {b : Board} {i j : Nat} :
    (i, j) ∈ get_valid_moves b ↔
      i < b.length ∧ j < b.length ∧ cellAt b i j = some none := by
  unfold get_valid_moves
  simp only [List.mem_flatMap, List.mem_filterMap, List.mem_range]
  constructor
  · rintro ⟨i', hi', j', hj', h⟩
    by_cases hc : cellAt b i' j' = some none
    · rw [if_pos hc] at h
      obtain ⟨rfl, rfl⟩ : i' = i ∧ j' = j := by
        constructor <;> injection h <;> simp_all
      exact ⟨hi', hj', hc⟩
    · rw [if_neg hc] at h
      exact absurd h (by simp)
  · rintro ⟨hi, hj, hc⟩
    exact ⟨i, hi, j, ⟨hj, by rw [if_pos hc]⟩⟩

theorem pyIdx_nat {n i : Nat} (h : i < n) : pyIdx n (i : Int) = some i := by
  unfold pyIdx
  rw [if_pos]
  · simp
  · exact ⟨Int.ofNat_nonneg i, by exact_mod_cast h⟩

theorem cellAt_eq_some {b : Board} {i j : Nat} {c : Cell} :
    cellAt b i j = some c ↔ ∃ row, b[i]? = some row ∧ row[j]? = some c := by
  simp [cellAt, Option.bind_eq_some]

/-- Python `l[n] = a` is the identity when the slot already holds `a`. -/
theorem set_of_getElem? {α : Type} : ∀ {l : List α} {n : Nat} {a : α},
    l[n]? = some a → l.set n a = l := by
  intro l
  induction l with
  | nil => intro n a h; simp at h
  | cons x xs ih =>
    intro n a h
    cases n with
    | zero => simp at h; simp [h]
    | succ m => simp at h; simp [List.set, ih h]

/-- `set_tile` on an empty in-range cell: succeeds and writes the mark. -/
theorem set_tile_of_empty {b : Board} {i j : Nat} {row : List Cell} (p : Player)
    (hi : b[i]? = some row) (hj : row[j]? = some none) :
    set_tile b i j p = some (true, b.set i (row.set j (some p.value))) := by
  have hilen : i < b.length := (List.getElem?_eq_some.mp hi).1
  have hjlen : j < row.length := (List.getElem?_eq_some.mp hj).1
  unfold set_tile
  simp only [pyIdx_nat hilen, hi, pyIdx_nat hjlen, hj]

/-- `set_tile` on an occupied in-range cell: returns `False`, board kept. -/
theorem set_tile_of_occupied {b : Board} {i j : Nat} {row : List Cell}
    {m : String} (p : Player)
    (hi : b[i]? = some row) (hj : row[j]? = some (some m)) :
    set_tile b i j p = some (false, b) := by
  have hilen : i < b.length := (List.getElem?_eq_some.mp hi).1
  have hjlen : j < row.length := (List.getElem?_eq_some.mp hj).1
  unfold set_tile
  simp only [pyIdx_nat hilen, hi, pyIdx_nat hjlen, hj]

/-- `null_tile` after `set_tile` on a previously empty cell restores the
original board exactly. -/
theorem null_tile_restore {b : Board} {i j : Nat} {row : List Cell} (v : Cell)
    (hi : b[i]? = some row) (hj : row[j]? = some none) :
    null_tile (b.set i (row.set j v)) i j = some (true, b) := by
  have hilen : i < b.length := (List.getElem?_eq_some.mp hi).1
  have hjlen : j < row.length := (List.getElem?_eq_some.mp hj).1
  unfold null_tile
  have h1 : (row.set j v).set j (none : Cell) = row := by
    rw [List.set_set, set_of_getElem? hj]
  have h2 : (b.set i (row.set j v)).set i row = b := by
    rw [List.set_set, set_of_getElem? hi]
  simp only [List.length_set, pyIdx_nat hilen,
    List.getElem?_set_eq_of_lt _ hilen, pyIdx_nat hjlen, List.set_set, h1, h2]

/-! ### The search restores the board (move/undo pairing) -/

theorem scoreLoopMin_board (eval : Board → Memo → F × Board × Memo)
    (heval : ∀ b' m', (eval b' m').2.1 = b') :
    ∀ (moves : List (Nat × Nat)) (b : Board) (minimum : F) (memo : Memo),
      (∀ mv ∈ moves, mv ∈ get_valid_moves b) →
      (scoreLoopMin eval b moves minimum memo).2.1 = b := by
  intro moves
  induction moves with
  | nil => intro b minimum memo _; simp [scoreLoopMin]
  | cons mv rest ih =>
    intro b minimum memo hmv
    obtain ⟨i, j⟩ := mv
    obtain ⟨-, -, hc⟩ := mem_get_valid_moves.mp (hmv (i, j) (by simp))
    obtain ⟨row, hi, hj⟩ := cellAt_eq_some.mp hc
    have hrest : ∀ mv ∈ rest, mv ∈ get_valid_moves b := by
      intro mv h; exact hmv mv (by simp [h])
    simp only [scoreLoopMin, set_tile_of_empty Player.HUMAN hi hj]
    cases hlk : List.lookup (to_immutable_key (b.set i (row.set j (some Player.HUMAN.value)))) memo with
    | some v =>
      simp only [null_tile_restore _ hi hj]
      exact ih b _ memo hrest
    | none =>
      rcases heq : eval (b.set i (row.set j (some Player.HUMAN.value))) memo with ⟨r, b2, m2⟩
      have hb2 : b2 = b.set i (row.set j (some Player.HUMAN.value)) := by
        have := heval (b.set i (row.set j (some Player.HUMAN.value))) memo
        rw [heq] at this; exact this
      subst hb2
      simp only [heq, null_tile_restore _ hi hj]
      exact ih b _ _ hrest

theorem scoreLoopMax_board (eval : Board → Memo → F × Board × Memo)
    (heval : ∀ b' m', (eval b' m').2.1 = b') :
    ∀ (moves : List (Nat × Nat)) (b : Board) (maximum : F) (memo : Memo),
      (∀ mv ∈ moves, mv ∈ get_valid_moves b) →
      (scoreLoopMax eval b moves maximum memo).2.1 = b := by
  intro moves
  induction moves with
  | nil => intro b maximum memo _; simp [scoreLoopMax]
  | cons mv rest ih =>
    intro b maximum memo hmv
    obtain ⟨i, j⟩ := mv
    obtain ⟨-, -, hc⟩ := mem_get_valid_moves.mp (hmv (i, j) (by simp))
    obtain ⟨row, hi, hj⟩ := cellAt_eq_some.mp hc
    have hrest : ∀ mv ∈ rest, mv ∈ get_valid_moves b := by
      intro mv h; exact hmv mv (by simp [h])
    simp only [scoreLoopMax, set_tile_of_empty Player.CPU hi hj]
    cases hlk : List.lookup (to_immutable_key (b.set i (row.set j (some Player.CPU.value)))) memo with
    | some v =>
      simp only [null_tile_restore _ hi hj]
      exact ih b _ memo hrest
    | none =>
      rcases heq : eval (b.set i (row.set j (some Player.CPU.value))) memo with ⟨r, b2, m2⟩
      have hb2 : b2 = b.set i (row.set j (some Player.CPU.value)) := by
        have := heval (b.set i (row.set j (some Player.CPU.value))) memo
        rw [heq] at this; exact this
      subst hb2
      simp only [heq, null_tile_restore _ hi hj]
      exact ih b _ _ hrest

theorem minimaxS_board :
    ∀ (fuel : Nat) (b : Board) (depth : Nat) (player : Player) (memo : Memo),
      (minimaxS fuel b depth player memo).2.1 = b := by
  intro fuel
  induction fuel with
  | zero =>
    intro b depth player memo
    unfold minimaxS
    split
    · rfl
    split
    · rfl
    split <;> rfl
  | succ f ih =>
    intro b depth player memo
    unfold minimaxS
    split
    · rfl
    split
    · rfl
    split
    · rfl
    cases player with
    | HUMAN =>
      exact scoreLoopMin_board _ (fun b' m' => ih b' (depth + 1) Player.CPU m')
        _ b _ memo (fun mv h => h)
    | CPU =>
      exact scoreLoopMax_board _ (fun b' m' => ih b' (depth + 1) Player.HUMAN m')
        _ b _ memo (fun mv h => h)

theorem topLoop_board (eval : Board → Memo → F × Board × Memo)
    (heval : ∀ b' m', (eval b' m').2.1 = b') :
    ∀ (moves : List (Nat × Nat)) (b : Board) (maximum : F)
      (move : Option (Nat × Nat)) (scores : List ((Nat × Nat) × F)) (memo : Memo),
      (∀ mv ∈ moves, mv ∈ get_valid_moves b) →
      (topLoop eval b moves maximum move scores memo).2.2.1 = b := by
  intro moves
  induction moves with
  | nil => intro b maximum move scores memo _; simp [topLoop]
  | cons mv rest ih =>
    intro b maximum move scores memo hmv
    obtain ⟨i, j⟩ := mv
    obtain ⟨-, -, hc⟩ := mem_get_valid_moves.mp (hmv (i, j) (by simp))
    obtain ⟨row, hi, hj⟩ := cellAt_eq_some.mp hc
    have hrest : ∀ mv ∈ rest, mv ∈ get_valid_moves b := by
      intro mv h; exact hmv mv (by simp [h])
    simp only [topLoop, set_tile_of_empty Player.CPU hi hj]
    rcases heq : eval (b.set i (row.set j (some Player.CPU.value))) memo with ⟨r, b2, m2⟩
    have hb2 : b2 = b.set i (row.set j (some Player.CPU.value)) := by
      have := heval (b.set i (row.set j (some Player.CPU.value))) memo
      rw [heq] at this; exact this
    subst hb2
    simp only [heq, null_tile_restore _ hi hj]
    split <;> exact ih b _ _ _ _ hrest

theorem minimax1_board (b : Board) (memo : Memo) :
    (minimax1 b memo).2.2.1 = b := by
  unfold minimax1
  exact topLoop_board _ (fun b' m' => minimaxS_board 9 b' 2 Player.HUMAN m')
    _ b _ _ _ memo (fun mv h => h)

/-! ### Mark counting and the memo cache -/

theorem countP_set_some {row : List Cell} {j : Nat} (m : String)
    (h : row[j]? = some none) :
    ((row.set j (some m)).countP fun c => c.isSome)
      = (row.countP fun c => c.isSome) + 1 := by
  induction row generalizing j with
  | nil => simp at h
  | cons x xs ih =>
    cases j with
    | zero =>
      simp only [List.getElem?_cons_zero, Option.some.injEq] at h
      subst h
      simp [List.countP_cons]
    | succ n =>
      simp only [List.getElem?_cons_succ] at h
      simp [List.set, List.countP_cons, ih h]
      omega

theorem sum_map_set {α : Type} (f : α → Nat) :
    ∀ (l : List α) (i : Nat) (x x' : α), l[i]? = some x →
      ((l.set i x').map f).sum + f x = (l.map f).sum + f x' := by
  intro l
  induction l with
  | nil => intro i x x' h; simp at h
  | cons y ys ih =>
    intro i x x' h
    cases i with
    | zero =>
      simp only [List.getElem?_cons_zero, Option.some.injEq] at h
      subst h
      simp [List.set]
      omega
    | succ n =>
      simp only [List.getElem?_cons_succ] at h
      simp only [List.set, List.map_cons, List.sum_cons]
      have := ih n x x' h
      omega

theorem markCount_place {b : Board} {i j : Nat} {row : List Cell} (m : String)
    (hi : b[i]? = some row) (hj : row[j]? = some none) :
    markCount (b.set i (row.set j (some m))) = markCount b + 1 := by
  unfold markCount
  have h1 := sum_map_set (fun r => r.countP fun c => c.isSome) b i row
    (row.set j (some m)) hi
  have h2 := countP_set_some m hj
  dsimp only at h1
  omega

theorem WF_set {b : Board} {i j : Nat} {row : List Cell} (v : Cell)
    (hwf : WF b) (hi : b[i]? = some row) :
    WF (b.set i (row.set j v)) := by
  obtain ⟨hlen, hrows⟩ := hwf
  refine ⟨by simp [hlen], ?_⟩
  intro r hr
  rcases List.mem_or_eq_of_mem_set hr with h | h
  · exact hrows r h
  · subst h
    rw [List.length_set]
    exact hrows row (List.getElem?_mem hi)

theorem to_immutable_key_of_WF {b : Board} (hwf : WF b) :
    to_immutable_key b = b := by
  obtain ⟨r0, r1, r2, rfl⟩ := List.length_eq_three.mp hwf.1
  rfl

theorem markCount_key_of_WF {b : Board} (hwf : WF b) :
    markCount (to_immutable_key b) = markCount b := by
  rw [to_immutable_key_of_WF hwf]

/-- Keys inserted by the score loops carry strictly more marks than the
position being scanned, so lookups at small keys are unaffected. -/
theorem scoreLoopMin_lookup (eval : Board → Memo → F × Board × Memo)
    (hevb : ∀ b' m', (eval b' m').2.1 = b')
    (hevm : ∀ b' m' k, WF b' → markCount k ≤ markCount b' →
      List.lookup k (eval b' m').2.2 = List.lookup k m') :
    ∀ (moves : List (Nat × Nat)) (b : Board) (minimum : F) (memo : Memo)
      (k : List (List Cell)), WF b →
      (∀ mv ∈ moves, mv ∈ get_valid_moves b) →
      markCount k ≤ markCount b →
      List.lookup k (scoreLoopMin eval b moves minimum memo).2.2
        = List.lookup k memo := by
  intro moves
  induction moves with
  | nil => intro b minimum memo k _ _ _; simp [scoreLoopMin]
  | cons mv rest ih =>
    intro b minimum memo k hwf hmv hk
    obtain ⟨i, j⟩ := mv
    obtain ⟨-, -, hc⟩ := mem_get_valid_moves.mp (hmv (i, j) (by simp))
    obtain ⟨row, hi, hj⟩ := cellAt_eq_some.mp hc
    have hrest : ∀ mv ∈ rest, mv ∈ get_valid_moves b := by
      intro mv h; exact hmv mv (by simp [h])
    have hwf1 : WF (b.set i (row.set j (some Player.HUMAN.value))) :=
      WF_set _ hwf hi
    have hmc1 : markCount (b.set i (row.set j (some Player.HUMAN.value)))
        = markCount b + 1 := markCount_place _ hi hj
    simp only [scoreLoopMin, set_tile_of_empty Player.HUMAN hi hj]
    cases hlk : List.lookup (to_immutable_key (b.set i (row.set j (some Player.HUMAN.value)))) memo with
    | some v =>
      simp only [null_tile_restore _ hi hj]
      exact ih b _ memo k hwf hrest hk
    | none =>
      rcases heq : eval (b.set i (row.set j (some Player.HUMAN.value))) memo with ⟨r, b2, m2⟩
      have hb2 : b2 = b.set i (row.set j (some Player.HUMAN.value)) := by
        have := hevb (b.set i (row.set j (some Player.HUMAN.value))) memo
        rw [heq] at this; exact this
      subst hb2
      simp only [heq, null_tile_restore _ hi hj]
      rw [ih b _ _ k hwf hrest hk]
      have hne : (k == to_immutable_key (b.set i (row.set j (some Player.HUMAN.value)))) = false := by
        rw [beq_eq_false_iff_ne]
        intro hkey
        have := markCount_key_of_WF hwf1
        rw [← hkey] at this
        omega
      simp only [List.lookup, hne]
      have := hevm (b.set i (row.set j (some Player.HUMAN.value))) memo k hwf1 (by omega)
      rw [heq] at this
      exact this

theorem scoreLoopMax_lookup (eval : Board → Memo → F × Board × Memo)
    (hevb : ∀ b' m', (eval b' m').2.1 = b')
    (hevm : ∀ b' m' k, WF b' → markCount k ≤ markCount b' →
      List.lookup k (eval b' m').2.2 = List.lookup k m') :
    ∀ (moves : List (Nat × Nat)) (b : Board) (maximum : F) (memo : Memo)
      (k : List (List Cell)), WF b →
      (∀ mv ∈ moves, mv ∈ get_valid_moves b) →
      markCount k ≤ markCount b →
      List.lookup k (scoreLoopMax eval b moves maximum memo).2.2
        = List.lookup k memo := by
  intro moves
  induction moves with
  | nil => intro b maximum memo k _ _ _; simp [scoreLoopMax]
  | cons mv rest ih =>
    intro b maximum memo k hwf hmv hk
    obtain ⟨i, j⟩ := mv
    obtain ⟨-, -, hc⟩ := mem_get_valid_moves.mp (hmv (i, j) (by simp))
    obtain ⟨row, hi, hj⟩ := cellAt_eq_some.mp hc
    have hrest : ∀ mv ∈ rest, mv ∈ get_valid_moves b := by
      intro mv h; exact hmv mv (by simp [h])
    have hwf1 : WF (b.set i (row.set j (some Player.CPU.value))) :=
      WF_set _ hwf hi
    have hmc1 : markCount (b.set i (row.set j (some Player.CPU.value)))
        = markCount b + 1 := markCount_place _ hi hj
    simp only [scoreLoopMax, set_tile_of_empty Player.CPU hi hj]
    cases hlk : List.lookup (to_immutable_key (b.set i (row.set j (some Player.CPU.value)))) memo with
    | some v =>
      simp only [null_tile_restore _ hi hj]
      exact ih b _ memo k hwf hrest hk
    | none =>
      rcases heq : eval (b.set i (row.set j (some Player.CPU.value))) memo with ⟨r, b2, m2⟩
      have hb2 : b2 = b.set i (row.set j (some Player.CPU.value)) := by
        have := hevb (b.set i (row.set j (some Player.CPU.value))) memo
        rw [heq] at this; exact this
      subst hb2
      simp only [heq, null_tile_restore _ hi hj]
      rw [ih b _ _ k hwf hrest hk]
      have hne : (k == to_immutable_key (b.set i (row.set j (some Player.CPU.value)))) = false := by
        rw [beq_eq_false_iff_ne]
        intro hkey
        have := markCount_key_of_WF hwf1
        rw [← hkey] at this
        omega
      simp only [List.lookup, hne]
      have := hevm (b.set i (row.set j (some Player.CPU.value))) memo k hwf1 (by omega)
      rw [heq] at this
      exact this

theorem minimaxS_lookup :
    ∀ (fuel : Nat) (b : Board) (depth : Nat) (player : Player) (memo : Memo)
      (k : List (List Cell)), WF b → markCount k ≤ markCount b →
      List.lookup k (minimaxS fuel b depth player memo).2.2
        = List.lookup k memo := by
  intro fuel
  induction fuel with
  | zero =>
    intro b depth player memo k _ _
    unfold minimaxS
    split
    · rfl
    split
    · rfl
    split <;> rfl
  | succ f ih =>
    intro b depth player memo k hwf hk
    unfold minimaxS
    split
    · rfl
    split
    · rfl
    split
    · rfl
    cases player with
    | HUMAN =>
      exact scoreLoopMin_lookup _
        (fun b' m' => minimaxS_board f b' (depth + 1) Player.CPU m')
        (fun b' m' k' hwf' hk' => ih b' (depth + 1) Player.CPU m' k' hwf' hk')
        _ b _ memo k hwf (fun mv h => h) hk
    | CPU =>
      exact scoreLoopMax_lookup _
        (fun b' m' => minimaxS_board f b' (depth + 1) Player.HUMAN m')
        (fun b' m' k' hwf' hk' => ih b' (depth + 1) Player.HUMAN m' k' hwf' hk')
        _ b _ memo k hwf (fun mv h => h) hk

theorem topLoop_lookup (eval : Board → Memo → F × Board × Memo)
    (hevb : ∀ b' m', (eval b' m').2.1 = b')
    (hevm : ∀ b' m' k, WF b' → markCount k ≤ markCount b' →
      List.lookup k (eval b' m').2.2 = List.lookup k m') :
    ∀ (moves : List (Nat × Nat)) (b : Board) (maximum : F)
      (move : Option (Nat × Nat)) (scores : List ((Nat × Nat) × F))
      (memo : Memo) (k : List (List Cell)), WF b →
      (∀ mv ∈ moves, mv ∈ get_valid_moves b) →
      markCount k ≤ markCount b + 1 →
      List.lookup k (topLoop eval b moves maximum move scores memo).2.2.2
        = List.lookup k memo := by
  intro moves
  induction moves with
  | nil => intro b maximum move scores memo k _ _ _; simp [topLoop]
  | cons mv rest ih =>
    intro b maximum move scores memo k hwf hmv hk
    obtain ⟨i, j⟩ := mv
    obtain ⟨-, -, hc⟩ := mem_get_valid_moves.mp (hmv (i, j) (by simp))
    obtain ⟨row, hi, hj⟩ := cellAt_eq_some.mp hc
    have hrest : ∀ mv ∈ rest, mv ∈ get_valid_moves b := by
      intro mv h; exact hmv mv (by simp [h])
    have hwf1 : WF (b.set i (row.set j (some Player.CPU.value))) :=
      WF_set _ hwf hi
    have hmc1 : markCount (b.set i (row.set j (some Player.CPU.value)))
        = markCount b + 1 := markCount_place _ hi hj
    simp only [topLoop, set_tile_of_empty Player.CPU hi hj]
    rcases heq : eval (b.set i (row.set j (some Player.CPU.value))) memo with ⟨r, b2, m2⟩
    have hb2 : b2 = b.set i (row.set j (some Player.CPU.value)) := by
      have := hevb (b.set i (row.set j (some Player.CPU.value))) memo
      rw [heq] at this; exact this
    subst hb2
    simp only [heq, null_tile_restore _ hi hj]
    have hm2 : List.lookup k m2 = List.lookup k memo := by
      have := hevm (b.set i (row.set j (some Player.CPU.value))) memo k hwf1 (by omega)
      rw [heq] at this
      exact this
    split
    · rw [ih b _ _ _ _ k hwf hrest hk]; exact hm2
    · rw [ih b _ _ _ _ k hwf hrest hk]; exact hm2

/-! ### C4: the search restores the board -/

/-- C4: every call to the search leaves the board's cell contents
exactly as they were at entry — each trial `set_tile` is undone by its
matching `null_tile` before the frame returns, on the depth-1 branch and
on the minimizing/maximizing branches, memo hit or miss alike. -/
theorem minimax_preserves_board (fuel : Nat) (b : Board) (depth : Nat)
    (player : Player) (memo : Memo) :
    (minimaxS fuel b depth player memo).2.1 = b ∧
      (minimax1 b memo).2.2.1 = b :=
  ⟨minimaxS_board fuel b depth player memo, minimax1_board b memo⟩

/-! ### C5: the memoization discipline -/

/-- C5: at depth > 1 the engine checks the cache keyed by the board
after the trial move: a hit uses the cached score with no recursion and
no cache change, a miss evaluates recursively and stores the result
under that key before the move is undone — in the minimizing and
maximizing loops alike — and the top-level depth-1 call is never
memoized (its own position's cache entry is untouched). -/
theorem minimax_memoization :
    (∀ (eval : Board → Memo → F × Board × Memo) (b b1 : Board) (i j : Nat)
        (rest : List (Nat × Nat)) (minimum : F) (memo : Memo) (v : F),
      set_tile b i j Player.HUMAN = some (true, b1) →
      null_tile b1 i j = some (true, b) →
      List.lookup (to_immutable_key b1) memo = some v →
      scoreLoopMin eval b ((i, j) :: rest) minimum memo
        = scoreLoopMin eval b rest (min minimum v) memo) ∧
    (∀ (eval : Board → Memo → F × Board × Memo) (b b1 : Board) (i j : Nat)
        (rest : List (Nat × Nat)) (minimum : F) (memo : Memo),
      set_tile b i j Player.HUMAN = some (true, b1) →
      (eval b1 memo).2.1 = b1 →
      null_tile b1 i j = some (true, b) →
      List.lookup (to_immutable_key b1) memo = none →
      scoreLoopMin eval b ((i, j) :: rest) minimum memo
        = scoreLoopMin eval b rest (min minimum (eval b1 memo).1)
            ((to_immutable_key b1, (eval b1 memo).1) :: (eval b1 memo).2.2)) ∧
    (∀ (eval : Board → Memo → F × Board × Memo) (b b1 : Board) (i j : Nat)
        (rest : List (Nat × Nat)) (maximum : F) (memo : Memo) (v : F),
      set_tile b i j Player.CPU = some (true, b1) →
      null_tile b1 i j = some (true, b) →
      List.lookup (to_immutable_key b1) memo = some v →
      scoreLoopMax eval b ((i, j) :: rest) maximum memo
        = scoreLoopMax eval b rest (max maximum v) memo) ∧
    (∀ (eval : Board → Memo → F × Board × Memo) (b b1 : Board) (i j : Nat)
        (rest : List (Nat × Nat)) (maximum : F) (memo : Memo),
      set_tile b i j Player.CPU = some (true, b1) →
      (eval b1 memo).2.1 = b1 →
      null_tile b1 i j = some (true, b) →
      List.lookup (to_immutable_key b1) memo = none →
      scoreLoopMax eval b ((i, j) :: rest) maximum memo
        = scoreLoopMax eval b rest (max maximum (eval b1 memo).1)
            ((to_immutable_key b1, (eval b1 memo).1) :: (eval b1 memo).2.2)) ∧
    (∀ (b : Board) (memo : Memo), WF b →
      List.lookup (to_immutable_key b) (minimax1 b memo).2.2.2
        = List.lookup (to_immutable_key b) memo) := by
  refine ⟨?_, ?_, ?_, ?_, ?_⟩
  · intro eval b b1 i j rest minimum memo v hset hnull hlk
    simp only [scoreLoopMin, hset, hlk, hnull]
  · intro eval b b1 i j rest minimum memo hset hb1 hnull hlk
    simp only [scoreLoopMin, hset, hlk]
    rcases heq : eval b1 memo with ⟨r, b2, m2⟩
    rw [heq] at hb1
    simp only at hb1
    subst hb1
    simp only [heq, hnull]
  · intro eval b b1 i j rest maximum memo v hset hnull hlk
    simp only [scoreLoopMax, hset, hlk, hnull]
  · intro eval b b1 i j rest maximum memo hset hb1 hnull hlk
    simp only [scoreLoopMax, hset, hlk]
    rcases heq : eval b1 memo with ⟨r, b2, m2⟩
    rw [heq] at hb1
    simp only at hb1
    subst hb1
    simp only [heq, hnull]
  · intro b memo hwf
    unfold minimax1
    refine topLoop_lookup _
      (fun b' m' => minimaxS_board 9 b' 2 Player.HUMAN m')
      (fun b' m' k' hwf' hk' => minimaxS_lookup 9 b' 2 Player.HUMAN m' k' hwf' hk')
      _ b _ _ _ memo _ hwf (fun mv h => h) ?_
    rw [markCount_key_of_WF hwf]
    omega

/-- Witness for C5: a cache hit on the scenario-2 board (the key of the
`(0, 2)` child is pre-seeded) uses the cached score with the memo
unchanged, and the top-level call leaves its own position's entry
untouched. -/
theorem minimax_memoization_witness :
    set_tile bC2 0 2 Player.HUMAN = some (true, bC2row0) ∧
    null_tile bC2row0 0 2 = some (true, bC2) ∧
    List.lookup (to_immutable_key bC2row0) [(bC2row0, fq 7)] = some (fq 7) ∧
    scoreLoopMin evalConst bC2 [(0, 2)] ⊤ [(bC2row0, fq 7)]
      = scoreLoopMin evalConst bC2 [] (min ⊤ (fq 7)) [(bC2row0, fq 7)] ∧
    WF bC2 ∧
    List.lookup (to_immutable_key bC2) (minimax1 bC2 [(bC2row0, fq 7)]).2.2.2
      = List.lookup (to_immutable_key bC2) [(bC2row0, fq 7)] :=
  ⟨by decide, by decide, by decide,
    minimax_memoization.1 evalConst bC2 bC2row0 0 2 [] ⊤ [(bC2row0, fq 7)]
      (fq 7) (by decide) (by decide) (by decide),
    by decide,
    minimax_memoization.2.2.2.2 bC2 [(bC2row0, fq 7)] (by decide)⟩

/-! ### C6: the cache key carries no depth -/

theorem scoreLoopMin_allhit (eval eval' : Board → Memo → F × Board × Memo) :
    ∀ (moves : List (Nat × Nat)) (b : Board) (minimum : F) (memo : Memo),
      (∀ mv ∈ moves, mv ∈ get_valid_moves b) →
      (∀ mv ∈ moves, ((set_tile b mv.1 mv.2 Player.HUMAN).bind fun q =>
        List.lookup (to_immutable_key q.2) memo).isSome = true) →
      scoreLoopMin eval b moves minimum memo
        = scoreLoopMin eval' b moves minimum memo := by
  intro moves
  induction moves with
  | nil => intro b minimum memo _ _; rfl
  | cons mv rest ih =>
    intro b minimum memo hmv hhit
    obtain ⟨i, j⟩ := mv
    obtain ⟨-, -, hc⟩ := mem_get_valid_moves.mp (hmv (i, j) (by simp))
    obtain ⟨row, hi, hj⟩ := cellAt_eq_some.mp hc
    have hset := set_tile_of_empty Player.HUMAN hi hj
    have hh := hhit (i, j) (by simp)
    rw [hset] at hh
    simp only [Option.some_bind] at hh
    obtain ⟨v, hv⟩ := Option.isSome_iff_exists.mp hh
    simp only [scoreLoopMin, hset, hv, null_tile_restore _ hi hj]
    exact ih b _ memo (fun mv h => hmv mv (by simp [h]))
      (fun mv h => hhit mv (by simp [h]))

theorem scoreLoopMax_allhit (eval eval' : Board → Memo → F × Board × Memo) :
    ∀ (moves : List (Nat × Nat)) (b : Board) (maximum : F) (memo : Memo),
      (∀ mv ∈ moves, mv ∈ get_valid_moves b) →
      (∀ mv ∈ moves, ((set_tile b mv.1 mv.2 Player.CPU).bind fun q =>
        List.lookup (to_immutable_key q.2) memo).isSome = true) →
      scoreLoopMax eval b moves maximum memo
        = scoreLoopMax eval' b moves maximum memo := by
  intro moves
  induction moves with
  | nil => intro b maximum memo _ _; rfl
  | cons mv rest ih =>
    intro b maximum memo hmv hhit
    obtain ⟨i, j⟩ := mv
    obtain ⟨-, -, hc⟩ := mem_get_valid_moves.mp (hmv (i, j) (by simp))
    obtain ⟨row, hi, hj⟩ := cellAt_eq_some.mp hc
    have hset := set_tile_of_empty Player.CPU hi hj
    have hh := hhit (i, j) (by simp)
    rw [hset] at hh
    simp only [Option.some_bind] at hh
    obtain ⟨v, hv⟩ := Option.isSome_iff_exists.mp hh
    simp only [scoreLoopMax, hset, hv, null_tile_restore _ hi hj]
    exact ih b _ memo (fun mv h => hmv mv (by simp [h]))
      (fun mv h => hhit mv (by simp [h]))

/-- C6: the cache key encodes only the cell contents, not the depth (or
fuel): when every trial move of an ongoing position hits the cache, the
result is the stored score unchanged, identical for any two depth
arguments — even though fresh terminal scores would divide by the
current depth. -/
theorem memo_hit_ignores_depth (f1 f2 d1 d2 : Nat) (player : Player)
    (b : Board) (memo : Memo)
    (hst : get_status b = Status.ONGOING)
    (hhit : ∀ mv ∈ get_valid_moves b,
      ((set_tile b mv.1 mv.2 player).bind fun q =>
        List.lookup (to_immutable_key q.2) memo).isSome = true) :
    minimaxS (f1 + 1) b d1 player memo = minimaxS (f2 + 1) b d2 player memo := by
  unfold minimaxS
  simp only [hst, reduceCtorEq, if_false]
  cases player with
  | HUMAN => exact scoreLoopMin_allhit _ _ _ b _ memo (fun mv h => h) hhit
  | CPU => exact scoreLoopMax_allhit _ _ _ b _ memo (fun mv h => h) hhit

/-- Witness for C6: on a one-empty-cell ongoing board whose single child
key is cached with score `77`, the evaluation at depth 2 equals the
evaluation at depth 7 (both return the cached value unchanged). -/
theorem memo_hit_ignores_depth_witness :
    get_status bOne = Status.ONGOING ∧
    (∀ mv ∈ get_valid_moves bOne,
      ((set_tile bOne mv.1 mv.2 Player.CPU).bind fun q =>
        List.lookup (to_immutable_key q.2) [(bTie, fq 77)]).isSome = true) ∧
    minimaxS 9 bOne 2 Player.CPU [(bTie, fq 77)]
      = minimaxS 4 bOne 7 Player.CPU [(bTie, fq 77)] :=
  ⟨by decide, by decide,
    memo_hit_ignores_depth 8 3 2 7 Player.CPU bOne [(bTie, fq 77)]
      (by decide) (by decide)⟩

/-! ### C3: row-major enumeration and first-argmax selection -/

theorem bestScore_nil : bestScore [] = ⊥ := rfl

theorem bestScore_cons (x : (Nat × Nat) × F) (l : List ((Nat × Nat) × F)) :
    bestScore (x :: l) = max x.2 (bestScore l) := rfl

theorem gvm_row (b : Board) (i : Nat) : ∀ (l : List Nat),
    (l.filterMap fun j => if cellAt b i j = some none then some (i, j) else none)
      = (l.map fun j => (i, j)).filter
          fun mv => decide (cellAt b mv.1 mv.2 = some none) := by
  intro l
  induction l with
  | nil => rfl
  | cons j js ih =>
    simp only [List.filterMap_cons, List.map_cons, List.filter_cons]
    by_cases hc : cellAt b i j = some none
    · simp [hc, ih]
    · simp [hc, ih]

theorem valid_moves_row_major (b : Board) :
    get_valid_moves b = (rowMajorEnum b).filter
      fun mv => decide (cellAt b mv.1 mv.2 = some none) := by
  unfold get_valid_moves rowMajorEnum
  rw [List.filter_flatMap]
  congr 1
  funext i
  exact gvm_row b i _

/-- The scores record accumulates: the accumulator is a prefix, and the
produced part does not depend on the running maximum or move. -/
theorem topLoop_scores (eval : Board → Memo → F × Board × Memo) :
    ∀ (moves : List (Nat × Nat)) (b : Board) (maximum : F)
      (move : Option (Nat × Nat)) (sc0 : List ((Nat × Nat) × F)) (memo : Memo),
      (topLoop eval b moves maximum move sc0 memo).2.1
        = sc0 ++ topScores eval b moves memo := by
  intro moves
  induction moves with
  | nil => intro b maximum move sc0 memo; simp [topLoop, topScores]
  | cons mv rest ih =>
    intro b maximum move sc0 memo
    obtain ⟨i, j⟩ := mv
    cases hset : set_tile b (i : Int) (j : Int) Player.CPU with
    | none => simp [topLoop, topScores, hset]
    | some q =>
      obtain ⟨fl, b1⟩ := q
      rcases heq : eval b1 memo with ⟨val, b2, m2⟩
      cases hnull : null_tile b2 (i : Int) (j : Int) with
      | none => simp [topLoop, topScores, hset, heq, hnull]
      | some q2 =>
        obtain ⟨fl2, b3⟩ := q2
        simp only [topLoop, topScores, hset, heq, hnull]
        split <;> rw [ih] <;> simp

/-- The selection invariant of the `depth == 1` loop: the move returned
is the first one whose score attains the best score of the remaining
record, provided it beats the running maximum; otherwise the incoming
move survives. -/
theorem topLoop_select (eval : Board → Memo → F × Board × Memo)
    (hevb : ∀ b' m', (eval b' m').2.1 = b') :
    ∀ (moves : List (Nat × Nat)) (b : Board) (maxi : F)
      (mv : Option (Nat × Nat)) (sc0 : List ((Nat × Nat) × F)) (memo : Memo),
      (∀ x ∈ moves, x ∈ get_valid_moves b) →
      (topLoop eval b moves maxi mv sc0 memo).1
        = if maxi < bestScore (topScores eval b moves memo)
          then ((topScores eval b moves memo).find?
              fun p => p.2 == bestScore (topScores eval b moves memo)).map Prod.fst
          else mv := by
  intro moves
  induction moves with
  | nil =>
    intro b maxi mv sc0 memo _
    simp [topLoop, topScores, bestScore_nil]
  | cons mv0 rest ih =>
    intro b maxi mv sc0 memo hmv
    obtain ⟨i, j⟩ := mv0
    obtain ⟨-, -, hc⟩ := mem_get_valid_moves.mp (hmv (i, j) (by simp))
    obtain ⟨row, hi, hj⟩ := cellAt_eq_some.mp hc
    have hrest : ∀ x ∈ rest, x ∈ get_valid_moves b := by
      intro x h; exact hmv x (by simp [h])
    have hset := set_tile_of_empty Player.CPU hi hj
    rcases heq : eval (b.set i (row.set j (some Player.CPU.value))) memo with ⟨val, b2, m2⟩
    have hb2 : b2 = b.set i (row.set j (some Player.CPU.value)) := by
      have := hevb (b.set i (row.set j (some Player.CPU.value))) memo
      rw [heq] at this; exact this
    subst hb2
    simp only [topLoop, topScores, hset, heq, null_tile_restore _ hi hj,
      bestScore_cons]
    split
    case isTrue h =>
      rw [ih b val (some (i, j)) _ m2 hrest]
      by_cases hvM : val < bestScore (topScores eval b rest m2)
      · rw [if_pos hvM, max_eq_right hvM.le, if_pos (h.trans hvM),
          List.find?_cons_of_neg _ (by simp only [beq_iff_eq]; exact ne_of_lt hvM)]
      · push_neg at hvM
        rw [if_neg (not_lt.mpr hvM), max_eq_left hvM, if_pos h,
          List.find?_cons_of_pos _ (by simp)]
        rfl
    case isFalse h =>
      rw [ih b maxi mv _ m2 hrest]
      by_cases hM : maxi < bestScore (topScores eval b rest m2)
      · have hvM : val < bestScore (topScores eval b rest m2) :=
          lt_of_le_of_lt (not_lt.mp h) hM
        rw [max_eq_right hvM.le, if_pos hM, if_pos hM,
          List.find?_cons_of_neg _ (by simp only [beq_iff_eq]; exact ne_of_lt hvM)]
      · rw [if_neg hM,
          if_neg (by rw [lt_max_iff]; push_neg; exact ⟨not_lt.mp h, not_lt.mp hM⟩)]

/-- C3: the top-level call enumerates the valid moves in row-major order
(the row-major grid scan filtered to empty cells) and returns the
first-seen move attaining the strictly greatest recursive score — the
strict greater-than against a running maximum initialised to `-inf`
means a tie is won by the earlier move, and no move at all is returned
only if every score is `-inf`. -/
theorem minimax1_first_argmax (b : Board) (memo : Memo) :
    get_valid_moves b = (rowMajorEnum b).filter
        (fun mv => decide (cellAt b mv.1 mv.2 = some none)) ∧
    (minimax1 b memo).1 = firstBest ((minimax1 b memo).2.1) := by
  refine ⟨valid_moves_row_major b, ?_⟩
  unfold minimax1
  rw [topLoop_select _ (fun b' m' => minimaxS_board 9 b' 2 Player.HUMAN m')
    _ b _ _ _ memo (fun x h => h)]
  rw [topLoop_scores]
  unfold firstBest
  simp only [List.nil_append]
  by_cases hb : bestScore (topScores
      (fun b1 m => minimaxS 9 b1 2 Player.HUMAN m) b (get_valid_moves b) memo) = ⊥
  · rw [if_pos hb, if_neg (by rw [hb]; exact WithBot.not_lt_bot _)]
  · rw [if_neg hb, if_pos (WithBot.bot_lt_iff_ne_bot.mpr hb)]

/-! ### C2: scenario 2 — the winning move completes row 0 -/

theorem fq_le_fq {q q' : Rat} : fq q ≤ fq q' ↔ q ≤ q' := by
  simp [fq]

theorem pydiv_neg_le (d : Nat) : pydiv (-100) d ≤ pydiv 100 2 := by
  rw [pydiv_eq_div, pydiv_eq_div]
  have h0 : (0 : Rat) ≤ (100 : Rat) / (d : Rat) := by positivity
  have h1 : ((-100 : Int) : Rat) / (d : Rat) = -((100 : Rat) / (d : Rat)) := by
    push_cast
    ring
  have h2 : (0 : Rat) ≤ ((100 : Int) : Rat) / ((2 : Nat) : Rat) := by positivity
  rw [h1]
  linarith

theorem pydiv_pos_le {d : Nat} (hd : 2 ≤ d) : pydiv 100 d ≤ pydiv 100 2 := by
  rw [pydiv_eq_div, pydiv_eq_div]
  have hd' : (2 : Rat) ≤ (d : Rat) := by exact_mod_cast hd
  have hdpos : (0 : Rat) < (d : Rat) := by linarith
  rw [div_le_div_iff hdpos (by norm_num)]
  push_cast
  nlinarith

theorem zero_le_pydiv_B : (0 : Rat) ≤ pydiv 100 2 := by
  rw [pydiv_eq_div]
  positivity

theorem mem_of_lookup {memo : Memo} {k : List (List Cell)} {v : F}
    (h : List.lookup k memo = some v) : (k, v) ∈ memo := by
  induction memo with
  | nil => simp [List.lookup] at h
  | cons kv rest ih =>
    obtain ⟨k', v'⟩ := kv
    by_cases hk : k == k'
    · simp only [List.lookup, hk, Option.some.injEq] at h
      subst h
      simp only [beq_iff_eq] at hk
      subst hk
      exact List.mem_cons_self _ _
    · rw [Bool.not_eq_true] at hk
      simp only [List.lookup, hk] at h
      exact List.mem_cons_of_mem _ (ih h)

theorem checkLines_win : ∀ (ls : List (List Cell)) (s : Status),
    checkLines ls = some s → s = Status.HUMAN_WIN ∨ s = Status.CPU_WIN := by
  intro ls
  induction ls with
  | nil => intro s h; simp [checkLines] at h
  | cons l rest ih =>
    intro s h
    unfold checkLines at h
    by_cases h3 : map_sum l = 3
    · rw [if_pos h3] at h
      exact Or.inl (Option.some.inj h).symm
    · rw [if_neg h3] at h
      by_cases h0 : map_sum l = 0
      · rw [if_pos h0] at h
        exact Or.inr (Option.some.inj h).symm
      · rw [if_neg h0] at h
        exact ih s h

theorem valid_moves_ne_nil {b : Board} (hwf : WF b)
    (hst : get_status b = Status.ONGOING) : get_valid_moves b ≠ [] := by
  unfold get_status at hst
  rcases hck : checkLines (linesOf b) with _ | s
  · rw [hck] at hst
    simp only at hst
    by_cases hall : b.all (fun row => row.all fun c => c.isSome)
    · rw [if_pos hall] at hst
      simp at hst
    · obtain ⟨row, hrow, c, hc, hcs⟩ :
          ∃ row ∈ b, ∃ c ∈ row, ¬ c.isSome = true := by
        simpa using hall
      have hcnone : c = none := Option.not_isSome_iff_eq_none.mp hcs
      subst hcnone
      obtain ⟨i, hilt, hieq⟩ := List.mem_iff_getElem.mp hrow
      obtain ⟨j, hjlt, hjeq⟩ := List.mem_iff_getElem.mp hc
      have hmem : (i, j) ∈ get_valid_moves b := by
        refine mem_get_valid_moves.mpr ⟨hilt, ?_, ?_⟩
        · have h3 := hwf.1
          have := hwf.2 row hrow
          omega
        · unfold cellAt
          rw [List.getElem?_eq_some.mpr ⟨hilt, hieq⟩]
          simp only [Option.some_bind]
          exact List.getElem?_eq_some.mpr ⟨hjlt, hjeq⟩
      exact List.ne_nil_of_mem hmem
  · rw [hck] at hst
    simp only at hst
    rcases checkLines_win _ _ hck with rfl | rfl <;> simp at hst

/-- Every score the search can produce at depth ≥ 2 is at most `100/2`,
and the memo stays bounded by `100/2`, provided it starts that way. -/
theorem scoreLoopMin_le (eval : Board → Memo → F × Board × Memo)
    (hevb : ∀ b' m', (eval b' m').2.1 = b')
    (hev : ∀ b' m', WF b' → (∀ kv ∈ m', kv.2 ≤ fq (pydiv 100 2)) →
      (eval b' m').1 ≤ fq (pydiv 100 2) ∧
      ∀ kv ∈ (eval b' m').2.2, kv.2 ≤ fq (pydiv 100 2)) :
    ∀ (moves : List (Nat × Nat)) (b : Board) (minimum : F) (memo : Memo),
      WF b → (∀ mv ∈ moves, mv ∈ get_valid_moves b) →
      (∀ kv ∈ memo, kv.2 ≤ fq (pydiv 100 2)) →
      (moves ≠ [] →
        (scoreLoopMin eval b moves minimum memo).1 ≤ fq (pydiv 100 2)) ∧
      (∀ kv ∈ (scoreLoopMin eval b moves minimum memo).2.2,
        kv.2 ≤ fq (pydiv 100 2)) := by
  intro moves
  induction moves with
  | nil =>
    intro b minimum memo _ _ hmemo
    exact ⟨fun h => absurd rfl h, by simpa [scoreLoopMin] using hmemo⟩
  | cons mv rest ih =>
    intro b minimum memo hwf hmv hmemo
    obtain ⟨i, j⟩ := mv
    obtain ⟨-, -, hc⟩ := mem_get_valid_moves.mp (hmv (i, j) (by simp))
    obtain ⟨row, hi, hj⟩ := cellAt_eq_some.mp hc
    have hrest : ∀ mv ∈ rest, mv ∈ get_valid_moves b := by
      intro mv h; exact hmv mv (by simp [h])
    have hwf1 : WF (b.set i (row.set j (some Player.HUMAN.value))) :=
      WF_set _ hwf hi
    simp only [scoreLoopMin, set_tile_of_empty Player.HUMAN hi hj]
    cases hlk : List.lookup (to_immutable_key (b.set i (row.set j (some Player.HUMAN.value)))) memo with
    | some v =>
      have hv : v ≤ fq (pydiv 100 2) := hmemo _ (mem_of_lookup hlk)
      simp only [null_tile_restore _ hi hj]
      cases rest with
      | nil =>
        refine ⟨fun _ => ?_, ?_⟩
        · simp only [scoreLoopMin]
          exact le_trans (min_le_right _ _) hv
        · simpa [scoreLoopMin] using hmemo
      | cons r rs =>
        refine ⟨fun _ => ?_, ?_⟩
        · exact (ih b _ memo hwf hrest hmemo).1 (by simp)
        · exact (ih b _ memo hwf hrest hmemo).2
    | none =>
      rcases heq : eval (b.set i (row.set j (some Player.HUMAN.value))) memo with ⟨r, b2, m2⟩
      have hb2 : b2 = b.set i (row.set j (some Player.HUMAN.value)) := by
        have := hevb (b.set i (row.set j (some Player.HUMAN.value))) memo
        rw [heq] at this; exact this
      subst hb2
      have hevout := hev (b.set i (row.set j (some Player.HUMAN.value))) memo hwf1 hmemo
      rw [heq] at hevout
      have hm3 : ∀ kv ∈ (to_immutable_key (b.set i (row.set j (some Player.HUMAN.value))), r) :: m2,
          kv.2 ≤ fq (pydiv 100 2) := by
        intro kv hkv
        rcases List.mem_cons.mp hkv with rfl | hkv
        · exact hevout.1
        · exact hevout.2 kv hkv
      simp only [heq, null_tile_restore _ hi hj]
      cases rest with
      | nil =>
        refine ⟨fun _ => ?_, ?_⟩
        · simp only [scoreLoopMin]
          exact le_trans (min_le_right _ _) hevout.1
        · simpa [scoreLoopMin] using hm3
      | cons rr rs =>
        refine ⟨fun _ => ?_, ?_⟩
        · exact (ih b _ _ hwf hrest hm3).1 (by simp)
        · exact (ih b _ _ hwf hrest hm3).2

theorem scoreLoopMax_le (eval : Board → Memo → F × Board × Memo)
    (hevb : ∀ b' m', (eval b' m').2.1 = b')
    (hev : ∀ b' m', WF b' → (∀ kv ∈ m', kv.2 ≤ fq (pydiv 100 2)) →
      (eval b' m').1 ≤ fq (pydiv 100 2) ∧
      ∀ kv ∈ (eval b' m').2.2, kv.2 ≤ fq (pydiv 100 2)) :
    ∀ (moves : List (Nat × Nat)) (b : Board) (maximum : F) (memo : Memo),
      WF b → (∀ mv ∈ moves, mv ∈ get_valid_moves b) →
      (∀ kv ∈ memo, kv.2 ≤ fq (pydiv 100 2)) →
      maximum ≤ fq (pydiv 100 2) →
      (scoreLoopMax eval b moves maximum memo).1 ≤ fq (pydiv 100 2) ∧
      (∀ kv ∈ (scoreLoopMax eval b moves maximum memo).2.2,
        kv.2 ≤ fq (pydiv 100 2)) := by
  intro moves
  induction moves with
  | nil =>
    intro b maximum memo _ _ hmemo hmax
    exact ⟨by simpa [scoreLoopMax] using hmax, by simpa [scoreLoopMax] using hmemo⟩
  | cons mv rest ih =>
    intro b maximum memo hwf hmv hmemo hmax
    obtain ⟨i, j⟩ := mv
    obtain ⟨-, -, hc⟩ := mem_get_valid_moves.mp (hmv (i, j) (by simp))
    obtain ⟨row, hi, hj⟩ := cellAt_eq_some.mp hc
    have hrest : ∀ mv ∈ rest, mv ∈ get_valid_moves b := by
      intro mv h; exact hmv mv (by simp [h])
    have hwf1 : WF (b.set i (row.set j (some Player.CPU.value))) :=
      WF_set _ hwf hi
    simp only [scoreLoopMax, set_tile_of_empty Player.CPU hi hj]
    cases hlk : List.lookup (to_immutable_key (b.set i (row.set j (some Player.CPU.value)))) memo with
    | some v =>
      have hv : v ≤ fq (pydiv 100 2) := hmemo _ (mem_of_lookup hlk)
      simp only [null_tile_restore _ hi hj]
      exact ih b _ memo hwf hrest hmemo (max_le hmax hv)
    | none =>
      rcases heq : eval (b.set i (row.set j (some Player.CPU.value))) memo with ⟨r, b2, m2⟩
      have hb2 : b2 = b.set i (row.set j (some Player.CPU.value)) := by
        have := hevb (b.set i (row.set j (some Player.CPU.value))) memo
        rw [heq] at this; exact this
      subst hb2
      have hevout := hev (b.set i (row.set j (some Player.CPU.value))) memo hwf1 hmemo
      rw [heq] at hevout
      have hm3 : ∀ kv ∈ (to_immutable_key (b.set i (row.set j (some Player.CPU.value))), r) :: m2,
          kv.2 ≤ fq (pydiv 100 2) := by
        intro kv hkv
        rcases List.mem_cons.mp hkv with rfl | hkv
        · exact hevout.1
        · exact hevout.2 kv hkv
      simp only [heq, null_tile_restore _ hi hj]
      exact ih b _ _ hwf hrest hm3 (max_le hmax hevout.1)

theorem minimaxS_le :
    ∀ (fuel : Nat) (b : Board) (depth : Nat) (player : Player) (memo : Memo),
      WF b → 2 ≤ depth → (∀ kv ∈ memo, kv.2 ≤ fq (pydiv 100 2)) →
      (minimaxS fuel b depth player memo).1 ≤ fq (pydiv 100 2) ∧
      (∀ kv ∈ (minimaxS fuel b depth player memo).2.2,
        kv.2 ≤ fq (pydiv 100 2)) := by
  intro fuel
  induction fuel with
  | zero =>
    intro b depth player memo hwf hd hmemo
    unfold minimaxS
    split
    · exact ⟨fq_le_fq.mpr (pydiv_neg_le depth), hmemo⟩
    split
    · exact ⟨fq_le_fq.mpr (pydiv_pos_le hd), hmemo⟩
    split
    · exact ⟨fq_le_fq.mpr zero_le_pydiv_B, hmemo⟩
    · exact ⟨fq_le_fq.mpr zero_le_pydiv_B, hmemo⟩
  | succ f ih =>
    intro b depth player memo hwf hd hmemo
    unfold minimaxS
    split
    · exact ⟨fq_le_fq.mpr (pydiv_neg_le depth), hmemo⟩
    split
    · exact ⟨fq_le_fq.mpr (pydiv_pos_le hd), hmemo⟩
    split
    · exact ⟨fq_le_fq.mpr zero_le_pydiv_B, hmemo⟩
    case isFalse h1 h2 h3 =>
      have hst : get_status b = Status.ONGOING := by
        cases hs : get_status b
        · exact absurd hs h2
        · exact absurd hs h1
        · exact absurd hs h3
        · rfl
      have hne := valid_moves_ne_nil hwf hst
      cases player with
      | HUMAN =>
        have := scoreLoopMin_le _
          (fun b' m' => minimaxS_board f b' (depth + 1) Player.CPU m')
          (fun b' m' hwf' hm' =>
            ih b' (depth + 1) Player.CPU m' hwf' (by omega) hm')
          (get_valid_moves b) b ⊤ memo hwf (fun mv h => h) hmemo
        exact ⟨this.1 hne, this.2⟩
      | CPU =>
        exact scoreLoopMax_le _
          (fun b' m' => minimaxS_board f b' (depth + 1) Player.HUMAN m')
          (fun b' m' hwf' hm' =>
            ih b' (depth + 1) Player.HUMAN m' hwf' (by omega) hm')
          (get_valid_moves b) b ⊥ memo hwf (fun mv h => h) hmemo bot_le

/-- Once the running maximum already matches the best possible score,
the strict comparison never fires again and the selected move survives
to the end of the loop. -/
theorem topLoop_keeps (eval : Board → Memo → F × Board × Memo)
    (hevb : ∀ b' m', (eval b' m').2.1 = b')
    (hev : ∀ b' m', WF b' → (∀ kv ∈ m', kv.2 ≤ fq (pydiv 100 2)) →
      (eval b' m').1 ≤ fq (pydiv 100 2) ∧
      ∀ kv ∈ (eval b' m').2.2, kv.2 ≤ fq (pydiv 100 2)) :
    ∀ (moves : List (Nat × Nat)) (b : Board) (maximum : F)
      (move : Option (Nat × Nat)) (scores : List ((Nat × Nat) × F))
      (memo : Memo), WF b →
      (∀ mv ∈ moves, mv ∈ get_valid_moves b) →
      (∀ kv ∈ memo, kv.2 ≤ fq (pydiv 100 2)) →
      fq (pydiv 100 2) ≤ maximum →
      (topLoop eval b moves maximum move scores memo).1 = move := by
  intro moves
  induction moves with
  | nil => intro b maximum move scores memo _ _ _ _; rfl
  | cons mv rest ih =>
    intro b maximum move scores memo hwf hmv hmemo hmax
    obtain ⟨i, j⟩ := mv
    obtain ⟨-, -, hc⟩ := mem_get_valid_moves.mp (hmv (i, j) (by simp))
    obtain ⟨row, hi, hj⟩ := cellAt_eq_some.mp hc
    have hrest : ∀ mv ∈ rest, mv ∈ get_valid_moves b := by
      intro mv h; exact hmv mv (by simp [h])
    have hwf1 : WF (b.set i (row.set j (some Player.CPU.value))) :=
      WF_set _ hwf hi
    rcases heq : eval (b.set i (row.set j (some Player.CPU.value))) memo with ⟨val, b2, m2⟩
    have hb2 : b2 = b.set i (row.set j (some Player.CPU.value)) := by
      have := hevb (b.set i (row.set j (some Player.CPU.value))) memo
      rw [heq] at this; exact this
    subst hb2
    have hevout := hev (b.set i (row.set j (some Player.CPU.value))) memo hwf1 hmemo
    rw [heq] at hevout
    simp only [topLoop, set_tile_of_empty Player.CPU hi hj, heq,
      null_tile_restore _ hi hj]
    rw [if_neg (not_lt.mpr (le_trans hevout.1 hmax))]
    exact ih b _ _ _ m2 hwf hrest hevout.2 hmax

/-- C2: with an empty memo cache, on `[[X, X, _], [O, O, _], [_, _, _]]`
with the CPU (mark `X`, the maximizing side) to move, the top-level call
returns the move `(0, 2)` that completes row 0. -/
theorem minimax_scenario2 : (minimax1 bC2 []).1 = some (0, 2) := by
  have hvm : get_valid_moves bC2 = [(0, 2), (1, 2), (2, 0), (2, 1), (2, 2)] := by
    decide
  have hset : set_tile bC2 ((0 : Nat) : Int) ((2 : Nat) : Int) Player.CPU
      = some (true, bXrow) := by decide
  have heval : minimaxS 9 bXrow 2 Player.HUMAN [] = (fq (pydiv 100 2), bXrow, []) := by
    decide
  have hnull : null_tile bXrow ((0 : Nat) : Int) ((2 : Nat) : Int)
      = some (true, bC2) := by decide
  have step1 : ∀ rest : List (Nat × Nat),
      topLoop (fun b1 m => minimaxS 9 b1 2 Player.HUMAN m) bC2
          ((0, 2) :: rest) ⊥ none [] []
        = topLoop (fun b1 m => minimaxS 9 b1 2 Player.HUMAN m) bC2
            rest (fq (pydiv 100 2)) (some (0, 2)) [((0, 2), fq (pydiv 100 2))] [] := by
    intro rest
    simp only [topLoop, hset, heval, hnull, List.nil_append]
    rw [if_pos (by decide : (⊥ : F) < fq (pydiv 100 2))]
  unfold minimax1
  rw [hvm, step1]
  exact topLoop_keeps _
    (fun b' m' => minimaxS_board 9 b' 2 Player.HUMAN m')
    (fun b' m' hwf' hm' => minimaxS_le 9 b' 2 Player.HUMAN m' hwf' (le_refl 2) hm')
    _ bC2 _ _ _ _ (by decide) (by decide) (by simp) (le_refl _)

/-! ### C1: terminal scoring at depth > 1 -/

/-- C1: for every call `minimax(board, depth, player)` with `depth > 1`,
if the status is a CPU win the call returns `100/depth`, if it is a
human win it returns `-100/depth`, and if it is a tie it returns `0`,
in each case before recursing (board and memo are untouched). -/
theorem minimax_terminal_scoring (fuel : Nat) (b : Board) (depth : Nat)
    (player : Player) (memo : Memo) (hdepth : 1 < depth) :
    (get_status b = Status.CPU_WIN →
      minimaxS fuel b depth player memo = (fq (100 / (depth : Rat)), b, memo)) ∧
    (get_status b = Status.HUMAN_WIN →
      minimaxS fuel b depth player memo = (fq (-100 / (depth : Rat)), b, memo)) ∧
    (get_status b = Status.TIE →
      minimaxS fuel b depth player memo = (fq 0, b, memo)) := by
  refine ⟨fun h => ?_, fun h => ?_, fun h => ?_⟩ <;>
    unfold minimaxS <;>
    simp [h, pydiv_eq_div]

/-- Witness for C1: on a board whose first row is `X X X` the status is
a CPU win and the call at depth 2 returns `100/2`. -/
theorem minimax_terminal_scoring_witness :
    (1 < 2) ∧ get_status bXrow = Status.CPU_WIN ∧
      minimaxS 9 bXrow 2 Player.HUMAN [] = (fq (100 / ((2 : Nat) : Rat)), bXrow, []) :=
  ⟨by norm_num, by decide,
    (minimax_terminal_scoring 9 bXrow 2 Player.HUMAN [] (by norm_num)).1 (by decide)⟩

/-! ### C7: a line containing an empty cell never registers a win -/

/-- C7: for every board and every line `get_status` examines (row,
column or diagonal), if the line contains an empty cell then `map_sum`
returns the sentinel `-1`, which differs from both winning values `3`
and `0`, so the scan never classifies that line as a win for either
player. -/
theorem line_with_empty_never_wins (b : Board) (l : List Cell)
    (hl : l ∈ linesOf b) (he : none ∈ l) :
    map_sum l = -1 ∧ map_sum l ≠ 3 ∧ map_sum l ≠ 0 ∧ checkLines [l] = none := by
  have h : map_sum l = -1 := by unfold map_sum; rw [if_pos he]
  refine ⟨h, by rw [h]; decide, by rw [h]; decide, ?_⟩
  unfold checkLines
  rw [h]
  decide

/-- Witness for C7: the first row of the scenario-2 board has an empty
cell and registers no win. -/
theorem line_with_empty_never_wins_witness :
    ([some "X", some "X", none] ∈ linesOf bC2) ∧
      (none ∈ [some "X", some "X", (none : Cell)]) ∧
      map_sum [some "X", some "X", none] = -1 ∧
      map_sum [some "X", some "X", none] ≠ 3 ∧
      map_sum [some "X", some "X", none] ≠ 0 ∧
      checkLines [[some "X", some "X", none]] = none := by
  have h := line_with_empty_never_wins bC2 [some "X", some "X", none]
    (by decide) (by decide)
  exact ⟨by decide, by decide, h.1, h.2.1, h.2.2.1, h.2.2.2⟩

/-! ### C8: out-of-range placement -/

/-- C8 counterexample: the claim "place never throws, even outside
`[0,2]x[0,2]`" is false — `set_tile` on row index `3` evaluates
`self.board[3]`, which raises `IndexError` (modelled by `none`). -/
theorem set_tile_out_of_range_raises :
    set_tile bEmpty 3 0 Player.CPU = none := by decide

/-- C8 amended: `set_tile` never throws for indices in `[-3, 2]` (the
indices Python accepts on a length-3 list, negative ones wrapping);
outside that range it raises `IndexError`, and range validation is the
interactive caller's responsibility. -/
theorem set_tile_in_range_never_raises (b : Board) (hwf : WF b)
    (i j : Int) (hi1 : -3 ≤ i) (hi2 : i < 3) (hj1 : -3 ≤ j) (hj2 : j < 3)
    (p : Player) : (set_tile b i j p).isSome = true := by
  obtain ⟨hlen, hrows⟩ := hwf
  have hpy : ∀ (k : Int), -3 ≤ k → k < 3 → ∃ k', pyIdx 3 k = some k' ∧ k' < 3 := by
    intro k h1 h2
    unfold pyIdx
    by_cases h0 : 0 ≤ k
    · rw [if_pos ⟨h0, by exact_mod_cast h2⟩]
      exact ⟨k.toNat, rfl, by omega⟩
    · rw [if_neg (by omega), if_pos (by constructor <;> omega)]
      exact ⟨(k + 3).toNat, rfl, by omega⟩
  obtain ⟨i', hpi, hi'⟩ := hpy i hi1 hi2
  obtain ⟨row, hrow⟩ : ∃ row, b[i']? = some row := by
    have : i' < b.length := by omega
    exact ⟨b[i'], List.getElem?_eq_some.mpr ⟨this, rfl⟩⟩
  have hrlen : row.length = 3 := by
    exact hrows row (List.getElem?_mem hrow)
  obtain ⟨j', hpj, hj'⟩ := hpy j hj1 hj2
  obtain ⟨c, hc⟩ : ∃ c, row[j']? = some c := by
    have : j' < row.length := by omega
    exact ⟨row[j'], List.getElem?_eq_some.mpr ⟨this, rfl⟩⟩
  unfold set_tile
  cases c <;> simp only [hlen, hpi, hrow, hrlen, hpj, hc] <;> rfl

/-- Witness for C8 amended: a negative in-window index does not throw. -/
theorem set_tile_in_range_never_raises_witness :
    WF bC2 ∧ (set_tile bC2 (-1) (-3) Player.CPU).isSome = true :=
  ⟨by decide, set_tile_in_range_never_raises bC2 (by decide) (-1) (-3)
    (by norm_num) (by norm_num) (by norm_num) (by norm_num) Player.CPU⟩

/-! ### C9: placement on an occupied cell -/

/-- C9: placing on an occupied in-range cell returns `False`, leaves
every cell unchanged, and raises no exception (the result is `some`,
carrying the original board). -/
theorem set_tile_occupied_returns_false (b : Board) (i j : Nat)
    (p : Player) (m : String) (h : cellAt b i j = some (some m)) :
    set_tile b i j p = some (false, b) := by
  obtain ⟨row, hi, hj⟩ := cellAt_eq_some.mp h
  exact set_tile_of_occupied p hi hj

/-- Witness for C9: placing on the occupied cell `(0, 0)` of the
scenario-2 board fails with `False` and keeps the board. -/
theorem set_tile_occupied_returns_false_witness :
    cellAt bC2 0 0 = some (some "X") ∧
      set_tile bC2 0 0 Player.HUMAN = some (false, bC2) :=
  ⟨by decide, set_tile_occupied_returns_false bC2 0 0 Player.HUMAN "X" (by decide)⟩

/-! ### C10: place/clear round-trip -/

/-- C10: for every board, empty in-range cell and mark, `set_tile`
followed by `null_tile` on the same cell restores the exact prior
canonical key. -/
theorem place_clear_restores_key (b : Board) (i j : Nat) (p : Player)
    (h : cellAt b i j = some none) :
    ((set_tile b i j p).bind fun q =>
        (null_tile q.2 i j).map fun q2 => to_immutable_key q2.2)
      = some (to_immutable_key b) := by
  obtain ⟨row, hi, hj⟩ := cellAt_eq_some.mp h
  rw [set_tile_of_empty p hi hj]
  simp [null_tile_restore _ hi hj]

/-- Witness for C10: placing and clearing `(0, 2)` on the scenario-2
board restores its key. -/
theorem place_clear_restores_key_witness :
    cellAt bC2 0 2 = some none ∧
      ((set_tile bC2 0 2 Player.CPU).bind fun q =>
          (null_tile q.2 0 2).map fun q2 => to_immutable_key q2.2)
        = some (to_immutable_key bC2) :=
  ⟨by decide, place_clear_restores_key bC2 0 2 Player.CPU (by decide)⟩

end TTT
